import Mathlib

/-!
# Verification of the tisk column-layout core

Shallow embedding of the text-layout core of the `tisk` task tracker:
the line breaker `formatting::format_to_column` (src/table.rs), the
column-width allocator `TableFormatter::set_columns` (src/table.rs) and the
character-run tokenizer `CharTokenIter` (src/table/tokenizer.rs).

Texts are modelled as `List Char` (Rust iterates `text.chars()`).  The catch
is that the Rust code *counts* characters but *slices* the UTF-8 byte string
with those counts (`text.get(start..end)`), so the slicing stage is modelled
at the byte level; a failed slice (`Option::unwrap` on `None`, i.e. a Rust
panic) is modelled as `none`.
-/

namespace Tisk

/-- `char::is_whitespace` of Rust: the Unicode `White_Space` property
(code points 0x09..0x0D, 0x20, 0x85, 0xA0, 0x1680, 0x2000..0x200A,
0x2028, 0x2029, 0x202F, 0x205F, 0x3000). -/
def rustIsWhitespace (c : Char) : Bool :=
  let n := c.toNat
  (0x9 ≤ n && n ≤ 0xD) || n = 0x20 || n = 0x85 || n = 0xA0 || n = 0x1680 ||
    (0x2000 ≤ n && n ≤ 0x200A) || n = 0x2028 || n = 0x2029 || n = 0x202F ||
    n = 0x205F || n = 0x3000

/-- A pending line recorded by `format_to_column`:
start and length of a slice into `text`, and `true` if it ends mid-word
(`breaks: Vec<(usize, usize, bool)>` in the source). -/
abbrev Break := Nat × Nat × Bool

/-- The inner `while word_len > 0` loop of `format_to_column`: chops the rest
of an overlong word into chunks.  Returns the emitted breaks together with the
final `line_start` and `line_len`.  The first argument is fuel; calls pass
`fuel = word_len`, which suffices because each iteration removes
`adjusted_width ≥ 1` from `word_len` whenever `width ≥ 1` (for `width = 0`
the Rust loop does not terminate, a case no claim exercises). -/
def chunkLoop (width adjusted_width : Nat) : Nat → Nat → Nat → List Break × Nat × Nat
  | 0, line_start, word_len => ([], line_start, word_len)
  | _fuel + 1, line_start, 0 => ([], line_start, 0)
  | fuel + 1, line_start, word_len + 1 =>
    if word_len + 1 ≤ adjusted_width then
      ([], line_start, word_len + 1)
    else
      let r := chunkLoop width adjusted_width fuel (line_start + adjusted_width)
        (word_len + 1 - adjusted_width)
      ((line_start, width, true) :: r.1, r.2)

/-- The main `while let Some(c) = chars.next()` loop of `format_to_column`,
accumulating `breaks`.  State: remaining characters, `line_start`, `line_len`.
A word run is consumed atomically (the source peels it off with an inner
`peek` loop), here via `takeWhile`/`dropWhile`.  The first argument is fuel;
each step consumes at least one character, so `fuel = text.length` suffices
and the `fuel = 0` case is unreachable from `format_to_column`. -/
def formatLoop (width split_limit hyphen_space : Nat) :
    Nat → List Char → Nat → Nat → List Break
  | _, [], line_start, line_len =>
    if 0 < line_len then [(line_start, line_len, false)] else []
  | 0, _ :: _, _, _ => []
  | fuel + 1, c :: cs, line_start, line_len =>
    if rustIsWhitespace c then
      if line_len + 1 ≤ width then
        formatLoop width split_limit hyphen_space fuel cs line_start (line_len + 1)
      else
        (line_start, line_len, false) ::
          formatLoop width split_limit hyphen_space fuel cs (line_start + line_len) 1
    else
      let word_len := 1 + (cs.takeWhile fun x => !rustIsWhitespace x).length
      let rest := cs.dropWhile fun x => !rustIsWhitespace x
      let word_start := line_start + line_len
      if word_len + line_len ≤ width then
        formatLoop width split_limit hyphen_space fuel rest line_start (line_len + word_len)
      else if word_len > width ∨ word_len > split_limit then
        let adjusted_width := width - hyphen_space
        let split := word_start + (if width = line_len then 0 else adjusted_width - line_len)
        let wl := word_len - (split - word_start)
        let ch := chunkLoop width adjusted_width wl split wl
        (line_start, adjusted_width, decide (word_start < split)) ::
          (ch.1 ++ formatLoop width split_limit hyphen_space fuel rest ch.2.1 ch.2.2)
      else
        (line_start, line_len, false) ::
          formatLoop width split_limit hyphen_space fuel rest word_start word_len

/-- Take the first `n` UTF-8 bytes of `l` as characters: `some` exactly when
`n` lands on a character boundary within `l`. -/
def byteTake : List Char → Nat → Option (List Char)
  | _, 0 => some []
  | [], _ + 1 => none
  | c :: cs, n + 1 =>
    if c.utf8Size ≤ n + 1 then (byteTake cs (n + 1 - c.utf8Size)).map (c :: ·) else none

/-- `text.get(start..start+len)` of Rust `str`: the characters of the byte
range, or `none` when an end of the range is not a character boundary. -/
def byteSlice : List Char → Nat → Nat → Option (List Char)
  | l, 0, len => byteTake l len
  | [], _ + 1, _ => none
  | c :: cs, s + 1, len =>
    if c.utf8Size ≤ s + 1 then byteSlice cs (s + 1 - c.utf8Size) len else none

/-- The final loop of `format_to_column`: turn each break into
`(text.get(start..end).unwrap(), hyphen_space > 0 && midword)`.  The `unwrap`
of a failed slice (a Rust panic) is modelled by `none`. -/
def sliceAll (text : List Char) (hyphen_space : Nat) :
    List Break → Option (List (List Char × Bool))
  | [] => some []
  | b :: bs =>
    match byteSlice text b.1 b.2.1 with
    | none => none
    | some line => (sliceAll text hyphen_space bs).map ((line, decide (0 < hyphen_space) && b.2.2) :: ·)

/-- The break list computed by `format_to_column` before slicing. -/
def formatBreaks (text : List Char) (width split_limit : Nat) : List Break :=
  formatLoop width split_limit (if 4 < width then 1 else 0) text.length text 0 0

/-- `formatting::format_to_column` (src/table.rs): format `text` into column
lines of at most `width` characters, splitting words longer than
`split_limit` (or longer than `width`) across lines.  Returns the list of
`(line, hyphenate)` pairs, or `none` when the Rust original panics
(its slicing `text.get(start..end).unwrap()` uses character counts as byte
offsets). -/
def format_to_column (text : List Char) (width split_limit : Nat) :
    Option (List (List Char × Bool)) :=
  sliceAll text (if 4 < width then 1 else 0) (formatBreaks text width split_limit)

/-- One scan step of `CharTokenIter::next` (src/table/tokenizer.rs): extend
the current run while the category matches, else emit the run and start a
new one.  `acc` holds the current run reversed. -/
def tokenizeGo {T : Type} [DecidableEq T] (cat : Char → T) :
    T → List Char → List Char → List (List Char)
  | _, acc, [] => [acc.reverse]
  | cur, acc, c :: cs =>
    if cat c = cur then tokenizeGo cat cur (c :: acc) cs
    else acc.reverse :: tokenizeGo cat (cat c) [c] cs

/-- The token texts emitted by iterating `CharTokenIter::next` to exhaustion:
maximal runs of characters with equal category under `cat`.  The source
slices `input` at `char_indices` offsets, which are always character
boundaries, so the byte bookkeeping cannot fail and the character-level
model is exact. -/
def tokenize {T : Type} [DecidableEq T] (cat : Char → T) : List Char → List (List Char)
  | [] => []
  | c :: cs => tokenizeGo cat (cat c) [c] cs

/-- `TableFormatter::set_columns` (src/table.rs) on a fresh formatter of width
`table_width`: returns the labels with their resolved widths, or `none` when
the Rust original panics — either via the explicit
`panic!("Total width of columns is greater than the width of the table")`
when `table_width < allocated_width`, or via the unchecked usize division
`remaining_space / num_without_width` when no column lacks a width. -/
def set_columns (table_width : Nat) (cols : List (String × Option Nat)) :
    Option (List (String × Nat)) :=
  let allocated_width := ((cols.filter fun x => x.2.isSome).map fun x => x.2.getD 0 + 1).sum
  let num_without_width := (cols.filter fun x => x.2.isNone).length
  if table_width < allocated_width then none
  else if num_without_width = 0 then none
  else
    let width_per_col := (table_width - allocated_width) / num_without_width
    some (cols.map fun lw => (lw.1, lw.2.getD width_per_col))

/-! ## Tokenizer: losslessness -/

theorem tokenizeGo_flatten {T : Type} [DecidableEq T] (cat : Char → T) :
    ∀ (cs : List Char) (cur : T) (acc : List Char),
      (tokenizeGo cat cur acc cs).flatten = acc.reverse ++ cs
  | [], _, _ => by simp [tokenizeGo]
  | c :: cs, cur, acc => by
    rw [tokenizeGo]
    by_cases h : cat c = cur
    · rw [if_pos h, tokenizeGo_flatten cat cs]
      simp
    · rw [if_neg h]
      simp [tokenizeGo_flatten cat cs]

/-- C7: for every total character-classification function, concatenating the
texts of all tokens emitted by the tokenizer, in emission order, reconstructs
the input exactly; and empty input yields an empty token sequence. -/
theorem tokenize_lossless {T : Type} [DecidableEq T] (cat : Char → T) :
    (∀ l : List Char, (tokenize cat l).flatten = l) ∧ tokenize cat ([] : List Char) = [] := by
  refine ⟨fun l => ?_, rfl⟩
  cases l with
  | nil => rfl
  | cons c cs => rw [tokenize, tokenizeGo_flatten cat cs]; rfl

/-! ## Column-width allocation: set_columns -/

theorem filterMap_width_sum (cols : List (String × Option Nat)) :
    ((cols.filter fun x => x.2.isSome).map fun x => x.2.getD 0 + 1).sum
      = ((cols.filterMap Prod.snd).map fun w => w + 1).sum := by
  induction cols with
  | nil => rfl
  | cons c cs ih =>
    rcases c with ⟨l, w⟩
    cases w <;> simp [List.filter, List.filterMap, ih]

theorem filter_isNone_length (cols : List (String × Option Nat)) :
    (cols.filter fun x => x.2.isNone).length = cols.countP fun x => x.2.isNone := by
  rw [List.countP_eq_length_filter]

/-- C4 counterexample: `set_columns` on `total_width = 5` with a single column
of explicit width 10 hits the `panic!` (modelled by `none`): configuration
does not fail with an error value returned to the caller. -/
theorem set_columns_panics_on_overflow : set_columns 5 [("ID", some 10)] = none := by decide

/-- C4 amended: `set_columns` panics — rather than returning a configuration
error — exactly when the sum of the explicit column widths, each plus one
inter-column space, exceeds the total table width, or when there are zero
columns without an explicit width (division by zero). -/
theorem set_columns_none_iff (table_width : Nat) (cols : List (String × Option Nat)) :
    set_columns table_width cols = none ↔
      (table_width < ((cols.filterMap Prod.snd).map fun w => w + 1).sum ∨
        (cols.countP fun x => x.2.isNone) = 0) := by
  simp only [set_columns]
  rw [filterMap_width_sum cols, filter_isNone_length cols]
  split_ifs with h1 h2
  · exact iff_of_true rfl (Or.inl h1)
  · exact iff_of_true rfl (Or.inr h2)
  · exact iff_of_false (by simp) (by omega)

/-- C8: when the explicit widths fit and at least one column has no explicit
width, `set_columns` succeeds and assigns each width-less column the width
`(table_width - Σ (fixed_width + 1)) / count_of_unsized_columns` (integer
division), keeping the explicit widths as given. -/
theorem set_columns_shared_width (table_width : Nat) (cols : List (String × Option Nat))
    (hfit : ((cols.filterMap Prod.snd).map fun w => w + 1).sum ≤ table_width)
    (hunsized : 0 < cols.countP fun x => x.2.isNone) :
    set_columns table_width cols =
      some (cols.map fun lw =>
        (lw.1, lw.2.getD ((table_width - ((cols.filterMap Prod.snd).map fun w => w + 1).sum) /
          cols.countP fun x => x.2.isNone))) := by
  simp only [set_columns]
  rw [filterMap_width_sum cols, filter_isNone_length cols]
  rw [if_neg (by omega), if_neg (by omega)]

/-- C8 witness: with columns `[("ID", 4), ("Name", None)]` and
`total_width = 20`, the `Name` column gets width `20 - (4 + 1) = 15`. -/
theorem set_columns_shared_width_witness :
    set_columns 20 [("ID", some 4), ("Name", none)] = some [("ID", 4), ("Name", 15)] := by
  have h := set_columns_shared_width 20 [("ID", some 4), ("Name", none)]
    (by decide) (by decide)
  exact h.trans (by decide)

/-- C10: whenever every column carries an explicit width — even when those
widths fit within the table width — `set_columns` divides by zero and panics
(modelled by `none`); configuring an all-fixed-width table is impossible. -/
theorem set_columns_all_fixed_panics (table_width : Nat) (cols : List (String × Option Nat))
    (hall : ∀ c ∈ cols, c.2.isSome)
    (_hfit : ((cols.filterMap Prod.snd).map fun w => w + 1).sum ≤ table_width) :
    set_columns table_width cols = none := by
  rw [set_columns_none_iff]
  right
  rw [List.countP_eq_zero]
  intro c hc
  have h := hall c hc
  revert h
  cases c.2 <;> simp

/-- C10 witness: a table of width 20 with the single explicit column
`("ID", 4)` (well within the width) still panics. -/
theorem set_columns_all_fixed_panics_witness : set_columns 20 [("ID", some 4)] = none :=
  set_columns_all_fixed_panics 20 [("ID", some 4)] (by decide) (by decide)

/-! ## format_to_column: concrete executions exhibiting the bugs -/

/-- C1: at `text = "the quick abcdefghijk"`, `width = 10 > 4`,
`split_limit = 5`, the code emits the line `"abcdefghij"` with
`hyphenated = true` and text length `10 = width`, violating the bound
`length ≤ width - 1` for hyphenated lines (the chunking loop pushes a break
of length `width` while advancing only `adjusted_width`). -/
theorem format_hyphen_overflow :
    format_to_column ("the quick abcdefghijk".toList) 10 5 =
      some [("the quick".toList, false), ("abcdefghij".toList, true), ("jk".toList, false)]
    ∧ 4 < 10 ∧ 10 - 1 < ("abcdefghij".toList).length := by decide

/-- C2: at `text = "the quick abcdefghijk"`, `width = 10`, `split_limit = 5`,
concatenating the emitted line texts yields `"the quickabcdefghijjk"`:
the space at index 9 is dropped (the `width == line_len` branch) and the
`'j'` at index 19 is duplicated (overlapping chunk breaks), so the original
text is not reproduced. -/
theorem format_not_lossless :
    (format_to_column ("the quick abcdefghijk".toList) 10 5).map
        (fun segs => (segs.map Prod.fst).flatten) =
      some ("the quickabcdefghijjk".toList)
    ∧ "the quickabcdefghijjk".toList ≠ "the quick abcdefghijk".toList := by decide

/-- C3: on the single-character text `"é"` (a 2-byte scalar) with
`width = 5`, `split_limit = 7`, the Rust code panics: the break covers one
character, but `text.get(0..1)` slices bytes and byte 1 is not a character
boundary, so `unwrap` panics (modelled by `none`).  `format_to_column` is not
total over non-ASCII texts. -/
theorem format_panics_on_nonascii : format_to_column ['é'] 5 7 = none := by decide

/-- C5 counterexample: with `text = "hello worlds"`, `width = 10` and
`split_limit = 10 ≥ width`, the word `"worlds"` (length 6) does not fit after
`"hello "`; the claimed rule (`split_limit ≥ width` makes it splittable)
demands a hyphenated mid-word split, but the code flushes the line
unhyphenated and puts the whole word on a new line — splittability in the
code is `word_len > width || word_len > split_limit`. -/
theorem format_split_limit_ge_width_no_split :
    (10 ≤ 10) ∧
      format_to_column ("hello worlds".toList) 10 10 =
        some [("hello ".toList, false), ("worlds".toList, false)] := by decide

/-- C6 counterexample: in `"a abcdefghij"` with `width = 10`,
`split_limit = 5`, the word run `"abcdefghij"` has length exactly `width`,
yet it is split across two segments (`"a abcdefg"` hyphenated and `"hij"`):
every emitted segment is shorter than the word, so the word's characters do
not appear contiguously within a single segment. -/
theorem format_word_eq_width_split :
    format_to_column ("a abcdefghij".toList) 10 5 =
      some [("a abcdefg".toList, true), ("hij".toList, false)]
    ∧ ∀ seg ∈ [("a abcdefg".toList, true), ("hij".toList, false)],
        seg.1.length < ("abcdefghij".toList).length := by decide

/-! ## Slicing lemmas for single-byte texts -/

theorem byteTake_ascii : ∀ (l : List Char) (n : Nat),
    (∀ c ∈ l, c.utf8Size = 1) → n ≤ l.length → byteTake l n = some (l.take n)
  | _, 0, _, _ => by simp [byteTake]
  | [], _ + 1, _, h => by simp at h
  | c :: cs, n + 1, ha, h => by
    have hc : c.utf8Size = 1 := ha c (by simp)
    rw [byteTake, if_pos (by omega), hc]
    simp only [Nat.add_sub_cancel]
    rw [byteTake_ascii cs n (fun x hx => ha x (by simp [hx])) (by simpa using h)]
    rfl

theorem byteSlice_ascii : ∀ (l : List Char) (s n : Nat),
    (∀ c ∈ l, c.utf8Size = 1) → s + n ≤ l.length →
    byteSlice l s n = some ((l.drop s).take n)
  | l, 0, n, ha, h => by
    have : byteSlice l 0 n = byteTake l n := by cases l <;> rfl
    rw [this, byteTake_ascii l n ha (by omega)]
    simp
  | [], s + 1, n, _, h => by simp at h
  | c :: cs, s + 1, n, ha, h => by
    have hc : c.utf8Size = 1 := ha c (by simp)
    rw [byteSlice, if_pos (by omega), hc]
    simp only [Nat.add_sub_cancel]
    rw [byteSlice_ascii cs s n (fun x hx => ha x (by simp [hx])) (by simp at h; omega)]
    rfl

theorem formatLoop_nil (width split_limit hyphen_space : Nat) :
    ∀ (fuel line_start line_len : Nat),
      formatLoop width split_limit hyphen_space fuel [] line_start line_len =
        if 0 < line_len then [(line_start, line_len, false)] else []
  | 0, _, _ => rfl
  | _ + 1, _, _ => rfl

theorem sliceAll_nil (text : List Char) (hyphen_space : Nat) :
    sliceAll text hyphen_space [] = some [] := rfl

theorem sliceAll_cons_some {text : List Char} {hyphen_space s n : Nat} {mid : Bool}
    {bs : List Break} {line : List Char} (h : byteSlice text s n = some line) :
    sliceAll text hyphen_space ((s, n, mid) :: bs) =
      (sliceAll text hyphen_space bs).map ((line, decide (0 < hyphen_space) && mid) :: ·) := by
  simp only [sliceAll, h]

/-! ## C6 amended: a single word of length width is one unsplit segment -/

/-- C6 amended: a word run of single-byte (one UTF-8 byte per character),
non-whitespace characters of length exactly `width` that begins on a fresh
(empty) line is never split: such a single-word text at `width ≥ 1` yields
the single segment `(word, false)`.  The single-byte hypothesis is forced:
character counts are used as byte offsets when slicing, so for multi-byte
characters even this fails — the single word `['é', 'é']` at `width = 2`
returns the single wrong segment `(['é'], false)`, half the word. -/
theorem format_single_word_unsplit (width split_limit : Nat) (word : List Char)
    (hpos : 0 < width) (hlen : word.length = width)
    (hw : ∀ c ∈ word, rustIsWhitespace c = false ∧ c.utf8Size = 1) :
    format_to_column word width split_limit = some [(word, false)] := by
  cases word with
  | nil => rw [List.length_nil] at hlen; omega
  | cons c cs =>
    have hl : cs.length + 1 = width := by simpa using hlen
    have hcw : rustIsWhitespace c = false := (hw c (by simp)).1
    have hcsw : ∀ x ∈ cs, (fun x => !rustIsWhitespace x) x = true := by
      intro x hx
      simp [(hw x (by simp [hx])).1]
    have htake : (cs.takeWhile fun x => !rustIsWhitespace x) = cs :=
      List.takeWhile_eq_self_iff.mpr hcsw
    have hdrop : (cs.dropWhile fun x => !rustIsWhitespace x) = [] :=
      List.dropWhile_eq_nil_iff.mpr hcsw
    have hkey : ∀ hsv, formatLoop width split_limit hsv (cs.length + 1) (c :: cs) 0 0
        = [(0, 0 + (1 + cs.length), false)] := by
      intro hsv
      rw [formatLoop, if_neg (by simp [hcw])]
      simp only [htake, hdrop, List.length_nil]
      rw [if_pos (by omega)]
      rw [formatLoop_nil, if_pos (by omega)]
    have hslice : byteSlice (c :: cs) 0 (0 + (1 + cs.length)) = some (c :: cs) := by
      rw [byteSlice_ascii (c :: cs) 0 (0 + (1 + cs.length))
        (fun x hx => (hw x hx).2) (by simp; omega)]
      rw [List.drop_zero, List.take_of_length_le (by simp; omega)]
    rw [format_to_column, formatBreaks]
    rw [show (c :: cs).length = cs.length + 1 from rfl]
    rw [hkey]
    rw [sliceAll_cons_some hslice, sliceAll_nil]
    simp

/-- C6 amended witness: the 10-character word `"abcdefghij"` alone at
`width = 10` is emitted as one unsplit, unhyphenated segment. -/
theorem format_single_word_unsplit_witness :
    format_to_column ("abcdefghij".toList) 10 5 = some [("abcdefghij".toList, false)] :=
  format_single_word_unsplit 10 5 ("abcdefghij".toList) (by decide) (by decide) (by decide)

/-! ## C5 amended: the splittability rule of the code -/

/-- C5 amended: for the text `"a "` followed by an `n`-character word that
does not fit on the current line (`width < n + 2`, `width ≥ 5`), the word is
split mid-word — the first emitted break is `(0, width - 1, true)`, a
hyphenated line filled to `width - 1` — if and only if
`n > width ∨ n > split_limit`; otherwise the current line `"a "` is flushed
unhyphenated and the whole word forms the (only) other segment. -/
theorem format_splittable_iff (n width split_limit : Nat)
    (h5 : 5 ≤ width) (hnofit : width < n + 2) :
    (¬(n > width ∨ n > split_limit) →
      format_to_column ('a' :: ' ' :: List.replicate n 'x') width split_limit =
        some [(['a', ' '], false), (List.replicate n 'x', false)])
    ∧ ((n > width ∨ n > split_limit) →
      (formatBreaks ('a' :: ' ' :: List.replicate n 'x') width split_limit).head? =
        some (0, width - 1, true)) := by
  obtain ⟨m, rfl⟩ : ∃ m, n = m + 1 := ⟨n - 1, by omega⟩
  have hhs : (if 4 < width then 1 else 0) = 1 := if_pos (by omega)
  have hxw : ∀ x ∈ List.replicate m 'x', (fun x => !rustIsWhitespace x) x = true := by
    intro x hx
    rw [List.eq_of_mem_replicate hx]
    decide
  have htw1 : ((' ' :: List.replicate (m + 1) 'x').takeWhile fun x => !rustIsWhitespace x) = [] := by
    rw [List.takeWhile_cons, if_neg (by decide)]
  have hdw1 : ((' ' :: List.replicate (m + 1) 'x').dropWhile fun x => !rustIsWhitespace x)
      = ' ' :: List.replicate (m + 1) 'x' := by
    rw [List.dropWhile_cons, if_neg (by decide)]
  have htw2 : ((List.replicate m 'x').takeWhile fun x => !rustIsWhitespace x)
      = List.replicate m 'x' := List.takeWhile_eq_self_iff.mpr hxw
  have hdw2 : ((List.replicate m 'x').dropWhile fun x => !rustIsWhitespace x) = [] :=
    List.dropWhile_eq_nil_iff.mpr hxw
  have hlen3 : ('a' :: ' ' :: List.replicate (m + 1) 'x').length = (m + 2) + 1 := by
    simp
  have hbreaks : ∀ hsv, formatLoop width split_limit hsv ((m + 2) + 1)
      ('a' :: ' ' :: List.replicate (m + 1) 'x') 0 0 =
      formatLoop width split_limit hsv (m + 1) (List.replicate (m + 1) 'x') 0 (0 + (1 + 0) + 1) := by
    intro hsv
    rw [formatLoop, if_neg (by decide)]
    simp only [htw1, hdw1, List.length_nil]
    rw [if_pos (by omega)]
    rw [formatLoop, if_pos (by decide), if_pos (by omega)]
  constructor
  · intro hns
    have hbr1 : formatLoop width split_limit 1 (m + 1)
        (List.replicate (m + 1) 'x') 0 (0 + (1 + 0) + 1) = [(0, 2, false), (2, 1 + m, false)] := by
      rw [List.replicate_succ, formatLoop, if_neg (by decide)]
      simp only [htw2, hdw2, List.length_replicate]
      rw [if_neg (by omega), if_neg (by omega)]
      rw [formatLoop_nil, if_pos (by omega)]
    have hascii : ∀ c ∈ 'a' :: ' ' :: List.replicate (m + 1) 'x', c.utf8Size = 1 := by
      intro c hc
      rcases hc with _ | ⟨_, hc⟩
      · decide
      · rcases hc with _ | ⟨_, hc⟩
        · decide
        · rw [List.eq_of_mem_replicate hc]; decide
    have hsl1 : byteSlice ('a' :: ' ' :: List.replicate (m + 1) 'x') 0 2 = some ['a', ' '] := by
      rw [byteSlice_ascii _ _ _ hascii (by simp)]
      rfl
    have hsl2 : byteSlice ('a' :: ' ' :: List.replicate (m + 1) 'x') 2 (1 + m)
        = some (List.replicate (m + 1) 'x') := by
      rw [byteSlice_ascii _ _ _ hascii (by simp; omega)]
      rw [List.drop_succ_cons, List.drop_succ_cons, List.drop_zero,
        List.take_of_length_le (by simp; omega)]
    rw [format_to_column, formatBreaks, hlen3, hbreaks, hhs, hbr1]
    rw [sliceAll_cons_some hsl1, sliceAll_cons_some hsl2, sliceAll_nil]
    simp
  · intro hsp
    rw [formatBreaks, hlen3, hbreaks, hhs]
    rw [List.replicate_succ, formatLoop, if_neg (by decide)]
    simp only [htw2, hdw2, List.length_replicate]
    rw [if_neg (by omega), if_pos (by omega)]
    rw [List.head?_cons]
    have h3 : (if width = 0 + (1 + 0) + 1 then 0 else width - 1 - (0 + (1 + 0) + 1))
        = width - 3 := by
      rw [if_neg (by omega)]
      omega
    rw [h3]
    have h4 : 0 + (1 + 0) + 1 < 0 + (1 + 0) + 1 + (width - 3) := by omega
    simp [h4]

/-- C5 amended witness: at `n = 9`, `width = 10`, `split_limit = 12` the word
is not splittable (`9 ≤ 10` and `9 ≤ 12`), so the line `"a "` is flushed and
the whole word forms the second segment. -/
theorem format_splittable_iff_witness :
    (¬(9 > 10 ∨ 9 > 12) →
      format_to_column ('a' :: ' ' :: List.replicate 9 'x') 10 12 =
        some [(['a', ' '], false), (List.replicate 9 'x', false)])
    ∧ ((9 > 10 ∨ 9 > 12) →
      (formatBreaks ('a' :: ' ' :: List.replicate 9 'x') 10 12).head? =
        some (0, 10 - 1, true)) :=
  format_splittable_iff 9 10 12 (by decide) (by decide)

/-! ## Counting emitted lines: infrastructure for split_limit monotonicity -/

theorem chunkLoop_spec (width adjusted_width : Nat) (hadj : 1 ≤ adjusted_width) :
    ∀ (fuel wl ls : Nat), 1 ≤ wl → wl ≤ fuel →
      (chunkLoop width adjusted_width fuel ls wl).1.length = (wl - 1) / adjusted_width ∧
      (chunkLoop width adjusted_width fuel ls wl).2.2 = (wl - 1) % adjusted_width + 1
  | 0, wl, ls, hw, hf => by omega
  | fuel + 1, 0, ls, hw, hf => by omega
  | fuel + 1, wl + 1, ls, hw, hf => by
    rw [chunkLoop]
    by_cases hle : wl + 1 ≤ adjusted_width
    · rw [if_pos hle]
      simp only [List.length_nil, Nat.add_sub_cancel]
      exact ⟨(Nat.div_eq_of_lt (by omega)).symm, by rw [Nat.mod_eq_of_lt (by omega)]⟩
    · rw [if_neg hle]
      have hrec := chunkLoop_spec width adjusted_width hadj fuel (wl + 1 - adjusted_width)
        (ls + adjusted_width) (by omega) (by omega)
      have h2 : wl + 1 - 1 = (wl + 1 - adjusted_width - 1) + adjusted_width := by omega
      refine ⟨?_, ?_⟩
      · simp only [List.length_cons]
        rw [hrec.1, h2, Nat.add_div_right _ (by omega)]
      · simp only []
        rw [hrec.2, h2, Nat.add_mod_right]

/-- The number of breaks a word run of length `wlen` contributes when the
current line holds `line_len` characters (read off the word branch of
`formatLoop`, with the chunk loop summarised by `chunkLoop_spec`). -/
def wordGain (width hyphen_space split_limit line_len wlen : Nat) : Nat :=
  if wlen + line_len ≤ width then 0
  else if wlen > width ∨ wlen > split_limit then
    1 + (wlen - (if width = line_len then 0 else (width - hyphen_space) - line_len) - 1) /
      (width - hyphen_space)
  else 1

/-- The `line_len` after the word branch of `formatLoop` processes a word run
of length `wlen` from a line holding `line_len` characters. -/
def wordNext (width hyphen_space split_limit line_len wlen : Nat) : Nat :=
  if wlen + line_len ≤ width then line_len + wlen
  else if wlen > width ∨ wlen > split_limit then
    (wlen - (if width = line_len then 0 else (width - hyphen_space) - line_len) - 1) %
      (width - hyphen_space) + 1
  else wlen

/-- The number of breaks `formatLoop` emits, as a function of the remaining
text and `line_len` alone (`line_start` does not influence it). -/
def countLoop (width split_limit hyphen_space : Nat) : Nat → List Char → Nat → Nat
  | _, [], line_len => if 0 < line_len then 1 else 0
  | 0, _ :: _, _ => 0
  | fuel + 1, c :: cs, line_len =>
    if rustIsWhitespace c then
      if line_len + 1 ≤ width then
        countLoop width split_limit hyphen_space fuel cs (line_len + 1)
      else 1 + countLoop width split_limit hyphen_space fuel cs 1
    else
      let wlen := 1 + (cs.takeWhile fun x => !rustIsWhitespace x).length
      let rest := cs.dropWhile fun x => !rustIsWhitespace x
      wordGain width hyphen_space split_limit line_len wlen +
        countLoop width split_limit hyphen_space fuel rest
          (wordNext width hyphen_space split_limit line_len wlen)

theorem countLoop_nil (width split_limit hyphen_space : Nat) :
    ∀ (fuel line_len : Nat),
      countLoop width split_limit hyphen_space fuel [] line_len =
        if 0 < line_len then 1 else 0
  | 0, _ => rfl
  | _ + 1, _ => rfl

theorem formatLoop_length (width split_limit hyphen_space : Nat)
    (hadj : 1 ≤ width - hyphen_space) :
    ∀ (fuel : Nat) (cs : List Char) (ls ll : Nat),
      (formatLoop width split_limit hyphen_space fuel cs ls ll).length =
        countLoop width split_limit hyphen_space fuel cs ll := by
  intro fuel
  induction fuel with
  | zero =>
    intro cs ls ll
    cases cs with
    | nil => rw [formatLoop_nil, countLoop_nil]; split_ifs <;> rfl
    | cons c cs => rfl
  | succ f ih =>
    intro cs ls ll
    cases cs with
    | nil => rw [formatLoop_nil, countLoop_nil]; split_ifs <;> rfl
    | cons c cs =>
      rw [formatLoop, countLoop]
      by_cases hws : rustIsWhitespace c
      · rw [if_pos hws, if_pos hws]
        by_cases hfit : ll + 1 ≤ width
        · rw [if_pos hfit, if_pos hfit, ih]
        · rw [if_neg hfit, if_neg hfit]
          simp only [List.length_cons, ih]
          omega
      · rw [if_neg hws, if_neg hws]
        simp only []
        by_cases hfit : 1 + (cs.takeWhile fun x => !rustIsWhitespace x).length + ll ≤ width
        · rw [if_pos hfit, ih, wordGain, wordNext, if_pos hfit, if_pos hfit]
          omega
        · rw [if_neg hfit]
          by_cases hsp : 1 + (cs.takeWhile fun x => !rustIsWhitespace x).length > width ∨
              1 + (cs.takeWhile fun x => !rustIsWhitespace x).length > split_limit
          · rw [if_pos hsp, wordGain, wordNext, if_neg hfit, if_neg hfit, if_pos hsp, if_pos hsp]
            have hcancel : ls + ll + (if width = ll then 0 else width - hyphen_space - ll) -
                (ls + ll) = (if width = ll then 0 else width - hyphen_space - ll) := by omega
            rw [hcancel]
            have hwl : 1 ≤ 1 + (cs.takeWhile fun x => !rustIsWhitespace x).length -
                (if width = ll then 0 else width - hyphen_space - ll) := by
              by_cases hwl2 : width = ll
              · rw [if_pos hwl2]; omega
              · rw [if_neg hwl2]; omega
            have hch := chunkLoop_spec width (width - hyphen_space) hadj
              (1 + (cs.takeWhile fun x => !rustIsWhitespace x).length -
                (if width = ll then 0 else width - hyphen_space - ll))
              (1 + (cs.takeWhile fun x => !rustIsWhitespace x).length -
                (if width = ll then 0 else width - hyphen_space - ll))
              (ls + ll + (if width = ll then 0 else width - hyphen_space - ll))
              hwl (Nat.le_refl _)
            simp only [List.length_cons, List.length_append]
            rw [hch.1, hch.2, ih]
            omega
          · rw [if_neg hsp, wordGain, wordNext, if_neg hfit, if_neg hfit, if_neg hsp, if_neg hsp]
            simp only [List.length_cons, ih]
            omega

/-! ## Arithmetic comparison lemmas for the word step -/

theorem split_split_c1 (adj ra rb : Nat) (hadj : 0 < adj) (hra : 1 ≤ ra) (hrab : ra ≤ rb) :
    1 + (ra - 1) / adj < 1 + (rb - 1) / adj ∨
      (1 + (ra - 1) / adj = 1 + (rb - 1) / adj ∧
        (ra - 1) % adj + 1 ≤ (rb - 1) % adj + 1) := by
  have hdiv : (ra - 1) / adj ≤ (rb - 1) / adj := Nat.div_le_div_right (by omega)
  rcases Nat.lt_or_ge ((ra - 1) / adj) ((rb - 1) / adj) with h | h
  · left; omega
  · right
    have heq : (ra - 1) / adj = (rb - 1) / adj := by omega
    have ea := Nat.div_add_mod (ra - 1) adj
    have eb := Nat.div_add_mod (rb - 1) adj
    rw [heq] at ea
    omega

theorem split_split_c2 (adj ra rb : Nat) (hadj : 0 < adj) (hra : 1 ≤ ra)
    (hrab : ra ≤ rb + adj) :
    1 + (ra - 1) / adj ≤ 1 + (rb - 1) / adj ∨
      (1 + (ra - 1) / adj = 1 + (rb - 1) / adj + 1 ∧
        (ra - 1) % adj + 1 ≤ (rb - 1) % adj + 1) := by
  have h1 : (ra - 1) / adj ≤ (rb - 1 + adj) / adj := Nat.div_le_div_right (by omega)
  rw [Nat.add_div_right _ hadj] at h1
  rcases le_or_lt ((ra - 1) / adj) ((rb - 1) / adj) with h | h
  · left; omega
  · right
    have heq : (ra - 1) / adj = (rb - 1) / adj + 1 := by omega
    have ea := Nat.div_add_mod (ra - 1) adj
    have eb := Nat.div_add_mod (rb - 1) adj
    rw [heq, Nat.mul_add, Nat.mul_one] at ea
    omega

theorem split_K0 (adj ra : Nat) (hadj : 0 < adj) (hra : 1 ≤ ra) (h : ra ≤ adj) :
    1 + (ra - 1) / adj = 1 ∧ (ra - 1) % adj + 1 = ra := by
  constructor
  · rw [Nat.div_eq_of_lt (by omega)]
  · rw [Nat.mod_eq_of_lt (by omega)]; omega

theorem wordNext_le (width hs sl ll wlen : Nat) (hadj : 1 ≤ width - hs) (hll : ll ≤ width) :
    wordNext width hs sl ll wlen ≤ width := by
  rw [wordNext]
  by_cases hfit : wlen + ll ≤ width
  · rw [if_pos hfit]; omega
  · rw [if_neg hfit]
    by_cases hsp : wlen > width ∨ wlen > sl
    · rw [if_pos hsp]
      have := Nat.mod_lt (wlen - (if width = ll then 0 else width - hs - ll) - 1)
        (show 0 < width - hs by omega)
      omega
    · rw [if_neg hsp]; omega

theorem wordNext_pos (width hs sl ll wlen : Nat) (hw : 1 ≤ wlen) :
    1 ≤ wordNext width hs sl ll wlen := by
  rw [wordNext]
  by_cases hfit : wlen + ll ≤ width
  · rw [if_pos hfit]; omega
  · rw [if_neg hfit]
    by_cases hsp : wlen > width ∨ wlen > sl
    · rw [if_pos hsp]; omega
    · rw [if_neg hsp]; omega

/-- One word step, runs at split limits `a ≤ b` from line fills
`ll_a ≤ ll_b`: the `a`-run emits strictly fewer breaks, or the same number
with its new line at most as full. -/
theorem word_c1 (width hs a b ll_a ll_b wlen : Nat) (hab : a ≤ b) (hb : b < width)
    (hhs : hs ≤ 1) (hadj : 1 ≤ width - hs) (h1 : ll_a ≤ ll_b) (h2 : ll_b ≤ width)
    (hw : 1 ≤ wlen) :
    wordGain width hs a ll_a wlen < wordGain width hs b ll_b wlen ∨
      (wordGain width hs a ll_a wlen = wordGain width hs b ll_b wlen ∧
        wordNext width hs a ll_a wlen ≤ wordNext width hs b ll_b wlen) := by
  simp only [wordGain, wordNext]
  by_cases hFb : wlen + ll_b ≤ width
  · have hFa : wlen + ll_a ≤ width := by omega
    simp only [if_pos hFa, if_pos hFb]
    exact Or.inr ⟨by trivial, by omega⟩
  · simp only [if_neg hFb]
    by_cases hFa : wlen + ll_a ≤ width
    · simp only [if_pos hFa]
      left
      by_cases hSb : wlen > width ∨ wlen > b
      · simp only [if_pos hSb]
        exact Nat.lt_of_lt_of_le Nat.one_pos (Nat.le_add_right 1 _)
      · simp only [if_neg hSb]; omega
    · simp only [if_neg hFa]
      by_cases hSb : wlen > width ∨ wlen > b
      · have hSa : wlen > width ∨ wlen > a := by omega
        simp only [if_pos hSa, if_pos hSb]
        by_cases hWa : width = ll_a
        · have hWb : width = ll_b := by omega
          simp only [if_pos hWa, if_pos hWb]
          exact Or.inr ⟨by trivial, by trivial⟩
        · by_cases hWb : width = ll_b
          · simp only [if_neg hWa, if_pos hWb]
            refine split_split_c1 _ _ _ ?_ ?_ ?_ <;> omega
          · simp only [if_neg hWa, if_neg hWb]
            refine split_split_c1 _ _ _ ?_ ?_ ?_ <;> omega
      · simp only [if_neg hSb]
        by_cases hSa : wlen > width ∨ wlen > a
        · simp only [if_pos hSa]
          right
          have hwb : wlen ≤ width ∧ wlen ≤ b := by omega
          by_cases hWa : width = ll_a
          · simp only [if_pos hWa]
            have hk := split_K0 (width - hs) (wlen - 0) (by omega) (by omega) (by omega)
            exact ⟨by omega, by omega⟩
          · simp only [if_neg hWa]
            have hk := split_K0 (width - hs) (wlen - (width - hs - ll_a))
              (by omega) (by omega) (by omega)
            exact ⟨by omega, by omega⟩
        · simp only [if_neg hSa]
          exact Or.inr ⟨by trivial, by trivial⟩

/-- One word step, runs at split limits `a ≤ b` from arbitrary nonempty line
fills: the `a`-run emits at most one more break than the `b`-run, and when it
does emit one more its new line is at most as full. -/
theorem word_c2 (width hs a b ll_a ll_b wlen : Nat) (hab : a ≤ b) (hb : b < width)
    (hhs : hs ≤ 1) (hadj : 1 ≤ width - hs)
    (h1a : 1 ≤ ll_a) (h2a : ll_a ≤ width) (h1b : 1 ≤ ll_b) (h2b : ll_b ≤ width)
    (hw : 1 ≤ wlen) :
    wordGain width hs a ll_a wlen ≤ wordGain width hs b ll_b wlen ∨
      (wordGain width hs a ll_a wlen = wordGain width hs b ll_b wlen + 1 ∧
        wordNext width hs a ll_a wlen ≤ wordNext width hs b ll_b wlen) := by
  simp only [wordGain, wordNext]
  by_cases hFa : wlen + ll_a ≤ width
  · left
    simp only [if_pos hFa]
    exact Nat.zero_le _
  · by_cases hFb : wlen + ll_b ≤ width
    · simp only [if_neg hFa, if_pos hFb]
      by_cases hSa : wlen > width ∨ wlen > a
      · simp only [if_pos hSa]
        right
        by_cases hWa : width = ll_a
        · simp only [if_pos hWa]
          have hk := split_K0 (width - hs) (wlen - 0) (by omega) (by omega) (by omega)
          exact ⟨by omega, by omega⟩
        · simp only [if_neg hWa]
          have hk := split_K0 (width - hs) (wlen - (width - hs - ll_a))
            (by omega) (by omega) (by omega)
          exact ⟨by omega, by omega⟩
      · simp only [if_neg hSa]
        exact Or.inr ⟨by trivial, by omega⟩
    · simp only [if_neg hFa, if_neg hFb]
      by_cases hSb : wlen > width ∨ wlen > b
      · have hSa : wlen > width ∨ wlen > a := by omega
        simp only [if_pos hSa, if_pos hSb]
        by_cases hWa : width = ll_a
        · by_cases hWb : width = ll_b
          · simp only [if_pos hWa, if_pos hWb]
            refine split_split_c2 _ _ _ ?_ ?_ ?_ <;> omega
          · simp only [if_pos hWa, if_neg hWb]
            refine split_split_c2 _ _ _ ?_ ?_ ?_ <;> omega
        · by_cases hWb : width = ll_b
          · simp only [if_neg hWa, if_pos hWb]
            refine split_split_c2 _ _ _ ?_ ?_ ?_ <;> omega
          · simp only [if_neg hWa, if_neg hWb]
            refine split_split_c2 _ _ _ ?_ ?_ ?_ <;> omega
      · simp only [if_neg hSb]
        by_cases hSa : wlen > width ∨ wlen > a
        · simp only [if_pos hSa]
          left
          have hwb : wlen ≤ width ∧ wlen ≤ b := by omega
          by_cases hWa : width = ll_a
          · simp only [if_pos hWa]
            have hk := split_K0 (width - hs) (wlen - 0) (by omega) (by omega) (by omega)
            omega
          · simp only [if_neg hWa]
            have hk := split_K0 (width - hs) (wlen - (width - hs - ll_a))
              (by omega) (by omega) (by omega)
            omega
        · simp only [if_neg hSa]
          left; omega

/-- Two runs of the break-counting loop over the same text, at split limits
`a ≤ b < width`: started from line fills `ll_a ≤ ll_b` the `a`-run emits at
most as many breaks; started from arbitrary nonempty line fills it emits at
most one more. -/
theorem countLoop_mono (width hs a b : Nat) (hab : a ≤ b) (hb : b < width)
    (hhs : hs ≤ 1) (hadj : 1 ≤ width - hs) :
    ∀ (fuel : Nat) (cs : List Char) (ll_a ll_b : Nat), ll_a ≤ width → ll_b ≤ width →
      ((ll_a ≤ ll_b → countLoop width a hs fuel cs ll_a ≤ countLoop width b hs fuel cs ll_b) ∧
        (1 ≤ ll_a → 1 ≤ ll_b →
          countLoop width a hs fuel cs ll_a ≤ countLoop width b hs fuel cs ll_b + 1)) := by
  intro fuel
  induction fuel with
  | zero =>
    intro cs ll_a ll_b hwa hwb
    cases cs with
    | nil =>
      simp only [countLoop_nil]
      constructor
      · intro h; split_ifs <;> omega
      · intro h1 h2; split_ifs <;> omega
    | cons c cs =>
      constructor
      · intro _
        show (0 : Nat) ≤ 0
        exact Nat.le_refl 0
      · intro _ _
        show (0 : Nat) ≤ 0 + 1
        omega
  | succ f ih =>
    intro cs ll_a ll_b hwa hwb
    cases cs with
    | nil =>
      simp only [countLoop_nil]
      constructor
      · intro h; split_ifs <;> omega
      · intro h1 h2; split_ifs <;> omega
    | cons c cs =>
      rw [countLoop, countLoop]
      by_cases hws : rustIsWhitespace c
      · simp only [if_pos hws]
        by_cases hfa : ll_a + 1 ≤ width
        · by_cases hfb : ll_b + 1 ≤ width
          · simp only [if_pos hfa, if_pos hfb]
            refine ⟨fun h => (ih cs (ll_a + 1) (ll_b + 1) (by omega) (by omega)).1 (by omega),
              fun h1 h2 => (ih cs (ll_a + 1) (ll_b + 1) (by omega) (by omega)).2
                (by omega) (by omega)⟩
          · simp only [if_pos hfa, if_neg hfb]
            have hih := (ih cs (ll_a + 1) 1 (by omega) (by omega)).2 (by omega) (by omega)
            exact ⟨fun _ => by omega, fun _ _ => by omega⟩
        · by_cases hfb : ll_b + 1 ≤ width
          · simp only [if_neg hfa, if_pos hfb]
            constructor
            · intro h
              exact absurd hfb (by omega)
            · intro h1 h2
              have hih := (ih cs 1 (ll_b + 1) (by omega) (by omega)).1 (by omega)
              omega
          · simp only [if_neg hfa, if_neg hfb]
            have hih := (ih cs 1 1 (by omega) (by omega)).1 (by omega)
            exact ⟨fun _ => by omega, fun _ _ => by omega⟩
      · simp only [if_neg hws]
        have hwlen : 1 ≤ 1 + (cs.takeWhile fun x => !rustIsWhitespace x).length := by omega
        constructor
        · intro h
          rcases word_c1 width hs a b ll_a ll_b
              (1 + (cs.takeWhile fun x => !rustIsWhitespace x).length)
              hab hb hhs hadj h hwb hwlen with hlt | ⟨heq, hle⟩
          · have hih := (ih (cs.dropWhile fun x => !rustIsWhitespace x)
              (wordNext width hs a ll_a (1 + (cs.takeWhile fun x => !rustIsWhitespace x).length))
              (wordNext width hs b ll_b (1 + (cs.takeWhile fun x => !rustIsWhitespace x).length))
              (wordNext_le width hs a ll_a _ hadj hwa)
              (wordNext_le width hs b ll_b _ hadj hwb)).2
              (wordNext_pos width hs a ll_a _ hwlen)
              (wordNext_pos width hs b ll_b _ hwlen)
            omega
          · have hih := (ih (cs.dropWhile fun x => !rustIsWhitespace x)
              (wordNext width hs a ll_a (1 + (cs.takeWhile fun x => !rustIsWhitespace x).length))
              (wordNext width hs b ll_b (1 + (cs.takeWhile fun x => !rustIsWhitespace x).length))
              (wordNext_le width hs a ll_a _ hadj hwa)
              (wordNext_le width hs b ll_b _ hadj hwb)).1 hle
            omega
        · intro h1 h2
          rcases word_c2 width hs a b ll_a ll_b
              (1 + (cs.takeWhile fun x => !rustIsWhitespace x).length)
              hab hb hhs hadj h1 hwa h2 hwb hwlen with hle | ⟨heq, hlee⟩
          · have hih := (ih (cs.dropWhile fun x => !rustIsWhitespace x)
              (wordNext width hs a ll_a (1 + (cs.takeWhile fun x => !rustIsWhitespace x).length))
              (wordNext width hs b ll_b (1 + (cs.takeWhile fun x => !rustIsWhitespace x).length))
              (wordNext_le width hs a ll_a _ hadj hwa)
              (wordNext_le width hs b ll_b _ hadj hwb)).2
              (wordNext_pos width hs a ll_a _ hwlen)
              (wordNext_pos width hs b ll_b _ hwlen)
            omega
          · have hih := (ih (cs.dropWhile fun x => !rustIsWhitespace x)
              (wordNext width hs a ll_a (1 + (cs.takeWhile fun x => !rustIsWhitespace x).length))
              (wordNext width hs b ll_b (1 + (cs.takeWhile fun x => !rustIsWhitespace x).length))
              (wordNext_le width hs a ll_a _ hadj hwa)
              (wordNext_le width hs b ll_b _ hadj hwb)).1 hlee
            omega

theorem sliceAll_length (text : List Char) (hs : Nat) :
    ∀ (bs : List Break) (r : List (List Char × Bool)),
      sliceAll text hs bs = some r → r.length = bs.length
  | [], r, h => by
    rw [sliceAll] at h
    cases h
    rfl
  | b :: bs, r, h => by
    rw [sliceAll] at h
    rcases hbs : byteSlice text b.1 b.2.1 with _ | line
    · rw [hbs] at h
      exact absurd h (by simp)
    · rw [hbs] at h
      rcases hrec : sliceAll text hs bs with _ | r'
      · rw [hrec] at h
        exact absurd h (by simp)
      · rw [hrec] at h
        have hr : r = (line, decide (0 < hs) && b.2.2) :: r' := by
          cases h
          rfl
        rw [hr]
        simp [sliceAll_length text hs bs r' hrec]

/-- C9: for a fixed text and width, raising the split limit from `a` to `b`
while `a < b < width` never decreases the number of emitted line segments. -/
theorem format_split_limit_monotone (text : List Char) (width a b : Nat)
    (segsA segsB : List (List Char × Bool)) (hab : a < b) (hb : b < width)
    (hA : format_to_column text width a = some segsA)
    (hB : format_to_column text width b = some segsB) :
    segsA.length ≤ segsB.length := by
  have hhs : (if 4 < width then 1 else 0) ≤ 1 := by split_ifs <;> omega
  have hadj : 1 ≤ width - (if 4 < width then 1 else 0) := by split_ifs <;> omega
  rw [format_to_column] at hA hB
  rw [sliceAll_length text _ _ _ hA, sliceAll_length text _ _ _ hB]
  rw [formatBreaks, formatBreaks]
  rw [formatLoop_length width a _ hadj, formatLoop_length width b _ hadj]
  exact (countLoop_mono width _ a b (by omega) hb hhs hadj text.length text 0 0
    (by omega) (by omega)).1 (by omega)

/-- C9 witness: `"the quick brown fox"` at width 10 with split limits 5 and 7
emits two lines either way. -/
theorem format_split_limit_monotone_witness :
    ([(("the quick ").toList, false), (("brown fox").toList, false)] :
        List (List Char × Bool)).length ≤
      ([(("the quick ").toList, false), (("brown fox").toList, false)] :
        List (List Char × Bool)).length :=
  format_split_limit_monotone ("the quick brown fox".toList) 10 5 7
    [(("the quick ").toList, false), (("brown fox").toList, false)]
    [(("the quick ").toList, false), (("brown fox").toList, false)]
    (by omega) (by omega) (by decide) (by decide)

end Tisk
